import Mathlib

/-!
Verification of the per-file template analysis of a text-template engine.

The analyzer (`Template.new` in `src/template.rs`) takes a parsed syntax
tree and extracts the blocks, top-level macros, macro imports and the
inheritance pointer of one template file.  The syntax-tree type itself is
produced by a parser crate that is not part of this repository's sources;
its data model is reproduced here from the specification (§3).  All maps
are modelled as association lists, which matches the `HashMap` operations
the source uses (`contains_key` before every `insert`, so keys stay
distinct).
-/

set_option autoImplicit false

namespace Tera

/-- Modelled from the spec (§3): the syntax-tree node type of the external
parser crate (`parser::Node`), a tagged union with exclusively owned,
tree-shaped bodies.  Bodies are kept directly as ordered lists of child
nodes; expressions are opaque strings since the analyzer never inspects
them.  `List` is the root sequence node (`Node::List`). -/
inductive Node where
  | Text (val : String)
  | Output (expr : String)
  | If (branches : List (String × List Node))
  | For (binding : String) (iterable : String) (body : List Node)
  | Block (name : String) (body : List Node)
  | Extends (parent : String)
  | Macro (name : String) (params : List String) (body : List Node)
  | MacroCall (ns : String) (name : String) (args : List (String × String))
  | ImportMacro (tpl_name : String) (name : String)
  | Super
  | List (nodes : List Node)

/-- Modelled from the spec (§3): `get_children` yields a node's immediate
body as an ordered sequence (empty for leaf nodes). -/
def get_children : Node → List Node
  | .List nodes => nodes
  | .Block _ body => body
  | .For _ _ body => body
  | .Macro _ _ body => body
  | _ => []

/-- The `HashMap<String, Node>` of the source, modelled as an association
list; the source checks `contains_key` before every `insert`, so keys are
never repeated. -/
abbrev Smap := List (String × Node)

/-- `HashMap::contains_key`. -/
def Smap.containsKey (m : Smap) (k : String) : Bool :=
  m.any (fun p => p.1 == k)

/-- `HashMap::insert` on a fresh key (the only way the source inserts). -/
def Smap.insert (m : Smap) (k : String) (v : Node) : Smap :=
  m ++ [(k, v)]

/-- `HashMap::get`. -/
def Smap.find? (m : Smap) (k : String) : Option Node :=
  (List.find? (fun p => p.1 == k) m).map Prod.snd

/-- The key set of the map, in insertion order. -/
def Smap.keys (m : Smap) : List String :=
  m.map Prod.fst

/-- The two failure cases of `Template::new` (the two `bail!` sites in
`src/template.rs`): a duplicated block name, a duplicated top-level macro
name. -/
inductive TplError where
  | DuplicateBlock (name : String)
  | DuplicateMacro (name : String)
deriving DecidableEq, Repr

/-- `find_blocks` of `src/template.rs` (lines 46–71): walks the given node
sequence; on a `Block` it fails if the name is already registered,
otherwise registers the node and recurses into the block's own body; every
other node is skipped without descending into it (`_ => continue`). -/
def find_blocks : List Node → Smap → Except TplError Smap
  | [], blocks => .ok blocks
  | .Block name body :: rest, blocks =>
      if Smap.containsKey blocks name then
        .error (.DuplicateBlock name)
      else
        match find_blocks body (Smap.insert blocks name (.Block name body)) with
        | .ok blocks2 => find_blocks rest blocks2
        | .error e => .error e
  | _ :: rest, blocks => find_blocks rest blocks

/-- The second loop of `Template::new` (`src/template.rs` lines 78–102):
one pass over the root's direct children threading `parent`, `macros` and
`imported_macro_files`; an `Extends` overwrites `parent`, a `Macro` fails
on a name already present and is inserted otherwise, an `ImportMacro` is
appended; everything else is skipped. -/
def scan_top_level : List Node → Option String → Smap → List (String × String) →
    Except TplError (Option String × Smap × List (String × String))
  | [], parent, macros, imports => .ok (parent, macros, imports)
  | .Extends name :: rest, _, macros, imports =>
      scan_top_level rest (some name) macros imports
  | .Macro name params body :: rest, parent, macros, imports =>
      if Smap.containsKey macros name then
        .error (.DuplicateMacro name)
      else
        scan_top_level rest parent (Smap.insert macros name (.Macro name params body)) imports
  | .ImportMacro tpl_name name :: rest, parent, macros, imports =>
      scan_top_level rest parent macros (imports ++ [(tpl_name, name)])
  | _ :: rest, parent, macros, imports =>
      scan_top_level rest parent macros imports

/-- The `Template` record of `src/template.rs` (lines 10–36): the parsed
equivalent of one template file. -/
structure Template where
  name : String
  path : Option String
  ast : Node
  macros : Smap
  imported_macro_files : List (String × String)
  parent : Option String
  blocks : Smap
  parents : List String
  blocks_definitions : List (String × List (String × Node))

/-- `Template::new` of `src/template.rs` (lines 40–116), starting from the
already-parsed tree (the `parse` step belongs to the external parser
crate): collect the blocks with `find_blocks`, then scan the direct
top-level children for the parent pointer, the macros and the macro
imports, and assemble the record with `parents` and `blocks_definitions`
left empty. -/
def Template.new (tpl_name : String) (tpl_path : Option String) (ast : Node) :
    Except TplError Template :=
  match find_blocks (get_children ast) [] with
  | .error e => .error e
  | .ok blocks =>
    match scan_top_level (get_children ast) none [] [] with
    | .error e => .error e
    | .ok (parent, macros, imported_macro_files) =>
        .ok { name := tpl_name
              path := tpl_path
              ast := ast
              macros := macros
              imported_macro_files := imported_macro_files
              parent := parent
              blocks := blocks
              parents := []
              blocks_definitions := [] }

/-! Specification-side views of the analyzer: what one pass over the direct
top-level children yields, and the set of blocks the recursive walk can
reach. -/

/-- The parent name an `Extends` node carries, if the node is one. -/
def parentName? : Node → Option String
  | .Extends parent => some parent
  | _ => none

/-- The `(name, node)` entry a top-level `Macro` node contributes. -/
def macroEntry? : Node → Option (String × Node)
  | .Macro name params body => some (name, .Macro name params body)
  | _ => none

/-- The `(file, namespace)` pair an `ImportMacro` node contributes. -/
def importEntry? : Node → Option (String × String)
  | .ImportMacro tpl_name name => some (tpl_name, name)
  | _ => none

/-- The macro entries of the direct top-level children, in order. -/
def topMacros (l : List Node) : List (String × Node) :=
  l.filterMap macroEntry?

/-- The import entries of the direct top-level children, in order. -/
def topImports (l : List Node) : List (String × String) :=
  l.filterMap importEntry?

/-- The parent carried by the last top-level `Extends`, if any. -/
def lastExtends (l : List Node) : Option String :=
  (l.filterMap parentName?).getLast?

/-- `lastExtends` relative to an already-accumulated parent value. -/
def lastExtendsFrom (l : List Node) (parent : Option String) : Option String :=
  match (l.filterMap parentName?).getLast? with
  | some x => some x
  | none => parent

/-- The block entries `find_blocks` reaches, in registration order: the
walk descends into the body of a `Block` node and into nothing else. -/
def blockWalk : List Node → List (String × Node)
  | [] => []
  | .Block name body :: rest =>
      (name, .Block name body) :: (blockWalk body ++ blockWalk rest)
  | _ :: rest => blockWalk rest

/-- The block names `find_blocks` reaches, in registration order. -/
def walkNames (l : List Node) : List String :=
  (blockWalk l).map Prod.fst

/-- Sequential registration of a list of entries into a map: fail with
`DuplicateBlock` on a key already present, append otherwise.
`find_blocks` is equivalent to registering `blockWalk` this way. -/
def insertAll : List (String × Node) → Smap → Except TplError Smap
  | [], m => .ok m
  | (k, v) :: rest, m =>
      if Smap.containsKey m k then .error (.DuplicateBlock k)
      else insertAll rest (Smap.insert m k v)

/-- The names of the top-level macro entries. -/
def macroNames (l : List Node) : List String :=
  (topMacros l).map Prod.fst

mutual

/-- Every block name occurring anywhere in a node, at any nesting depth,
in depth-first pre-order — including blocks inside `if`/`for`/`macro`
bodies, which `find_blocks` does not reach. -/
def allBlockNames : Node → List String
  | .Block name body => name :: allBlockNamesList body
  | .If branches => allBlockNamesBranches branches
  | .For _ _ body => allBlockNamesList body
  | .Macro _ _ body => allBlockNamesList body
  | .List nodes => allBlockNamesList nodes
  | _ => []

/-- `allBlockNames` over a node sequence. -/
def allBlockNamesList : List Node → List String
  | [] => []
  | n :: rest => allBlockNames n ++ allBlockNamesList rest

/-- `allBlockNames` over the branches of an `If`. -/
def allBlockNamesBranches : List (String × List Node) → List String
  | [] => []
  | (_, body) :: rest => allBlockNamesList body ++ allBlockNamesBranches rest

end

/-! The HTML escaping function of the library's public interface. -/

/-- Modelled from the spec (§6): the escaping of one character by
`escape_html`, whose implementation lives outside `src/` (only its bench
caller is present): `&`, `<`, `>`, `"` and the single quote become their
named entities, everything else passes through unchanged. -/
def escapeChar (c : Char) : String :=
  if c = '&' then "&amp;"
  else if c = '<' then "&lt;"
  else if c = '>' then "&gt;"
  else if c = '"' then "&quot;"
  else if c = '\'' then "&apos;"
  else String.singleton c

/-- Modelled from the spec (§6): `escape_html(text)` replaces the five
special characters by their entities and keeps every other character; it
is a pure character-wise map over the input. -/
def escape_html (input : String) : String :=
  ⟨input.data.flatMap (fun c => (escapeChar c).data)⟩

/-! Concrete syntax trees used to instantiate the theorems. -/

/-- Two top-level `Extends` nodes. -/
def astTwoExtends : Node := .List [.Extends "a", .Extends "b"]

/-- Two sibling top-level blocks with the same name. -/
def astDupBlocks : Node := .List [.Block "a" [], .Block "a" []]

/-- Two top-level macros with the same name. -/
def astDupMacros : Node := .List [.Macro "m" [] [], .Macro "m" [] []]

/-- Duplicate block names and duplicate macro names at the same time. -/
def astDupBoth : Node :=
  .List [.Block "a" [], .Block "a" [], .Macro "m" [] [], .Macro "m" [] []]

/-- A top-level block named `a` and a second block named `a` hidden
inside the body of an `If` branch. -/
def astIfBlock : Node := .List [.Block "a" [], .If [("c", [.Block "a" []])]]

/-- A block hidden inside the body of a `For`. -/
def astForBlock : Node := .List [.For "x" "xs" [.Block "b" []]]

/-- `Extends`, `Macro` and `ImportMacro` nodes nested inside a block
body, with nothing of the kind at top level. -/
def astNestedScan : Node :=
  .List [.Block "a" [.Extends "p", .Macro "m" [] [], .ImportMacro "f" "ns"]]

/-- The same namespace imported twice from different files. -/
def astImports : Node := .List [.ImportMacro "f1" "m", .ImportMacro "f2" "m"]

/-- One block and one macro. -/
def astBlockMacro : Node := .List [.Block "a" [], .Macro "m" [] []]

/-- A block nested inside another block. -/
def astNestedBlocks : Node := .List [.Block "a" [.Block "b" []]]

/-! Basic lemmas about the association-list map. -/

theorem Smap.containsKey_iff (m : Smap) (k : String) :
    Smap.containsKey m k = true ↔ k ∈ Smap.keys m := by
  simp [Smap.containsKey, Smap.keys, List.any_eq_true, List.mem_map]

theorem Smap.keys_insert (m : Smap) (k : String) (v : Node) :
    Smap.keys (Smap.insert m k v) = Smap.keys m ++ [k] := by
  simp [Smap.keys, Smap.insert]

theorem Smap.find?_mem {m : Smap} {k : String} {v : Node}
    (h : Smap.find? m k = some v) : (k, v) ∈ m := by
  unfold Smap.find? at h
  obtain ⟨p, hp, rfl⟩ : ∃ p, List.find? (fun p => p.1 == k) m = some p ∧ p.2 = v := by
    cases hf : List.find? (fun p => p.1 == k) m with
    | none => simp [hf] at h
    | some p => exact ⟨p, rfl, by simpa [hf] using h⟩
  have hk : p.1 = k := by simpa using List.find?_some hp
  have hm : p ∈ m := List.mem_of_find?_eq_some hp
  simpa [← hk] using hm

/-! Lemmas about sequential registration (`insertAll`). -/

theorem insertAll_append (a b : List (String × Node)) (m : Smap) :
    insertAll (a ++ b) m =
      match insertAll a m with
      | .ok m2 => insertAll b m2
      | .error e => .error e := by
  induction a generalizing m with
  | nil => simp [insertAll]
  | cons p rest ih =>
      obtain ⟨k, v⟩ := p
      by_cases h : Smap.containsKey m k = true
      · simp [insertAll, h]
      · simp only [List.cons_append, insertAll, h, if_false, Bool.false_eq_true]
        exact ih _

theorem insertAll_ok_inv {entries : List (String × Node)} {m m2 : Smap}
    (h : insertAll entries m = .ok m2) : m2 = m ++ entries := by
  induction entries generalizing m with
  | nil =>
      simp [insertAll] at h
      simp [← h]
  | cons p rest ih =>
      obtain ⟨k, v⟩ := p
      by_cases hc : Smap.containsKey m k = true
      · simp [insertAll, hc] at h
      · simp only [insertAll, hc, if_false, Bool.false_eq_true] at h
        have := ih h
        simpa [Smap.insert, List.append_assoc] using this

theorem insertAll_ok {entries : List (String × Node)} {m : Smap}
    (h : (Smap.keys m ++ entries.map Prod.fst).Nodup) :
    insertAll entries m = .ok (m ++ entries) := by
  induction entries generalizing m with
  | nil => simp [insertAll]
  | cons p rest ih =>
      obtain ⟨k, v⟩ := p
      rw [List.map_cons] at h
      have hnotin : k ∉ Smap.keys m := by
        rw [List.nodup_append] at h
        exact fun hk => h.2.2 hk (List.mem_cons_self _ _)
      have hc : Smap.containsKey m k = false := by
        rw [← Bool.not_eq_true, Smap.containsKey_iff]
        exact hnotin
      have hkeys : Smap.keys (Smap.insert m k v) ++ rest.map Prod.fst
          = Smap.keys m ++ k :: rest.map Prod.fst := by
        rw [Smap.keys_insert, List.append_assoc, List.singleton_append]
      have ih2 := ih (m := Smap.insert m k v) (by rw [hkeys]; exact h)
      simp only [insertAll, hc, if_false, Bool.false_eq_true, ih2]
      simp [Smap.insert, List.append_assoc]

theorem insertAll_err {entries : List (String × Node)} {m : Smap}
    (hm : (Smap.keys m).Nodup)
    (h : ¬ (Smap.keys m ++ entries.map Prod.fst).Nodup) :
    ∃ n, insertAll entries m = .error (.DuplicateBlock n) ∧
      n ∈ entries.map Prod.fst ∧
      (n ∈ Smap.keys m ∨ 2 ≤ (entries.map Prod.fst).count n) := by
  induction entries generalizing m with
  | nil => exact absurd (by simpa using hm) h
  | cons p rest ih =>
      obtain ⟨k, v⟩ := p
      simp only [List.map_cons] at h ⊢
      by_cases hc : Smap.containsKey m k = true
      · refine ⟨k, by simp [insertAll, hc], List.mem_cons_self _ _, Or.inl ?_⟩
        exact (Smap.containsKey_iff m k).1 hc
      · have hnotin : k ∉ Smap.keys m := by
          rw [← Smap.containsKey_iff]
          simp [hc]
        have hm2 : (Smap.keys (Smap.insert m k v)).Nodup := by
          rw [Smap.keys_insert, List.nodup_append]
          exact ⟨hm, List.nodup_singleton k, by simpa using hnotin⟩
        have hkeys : Smap.keys (Smap.insert m k v) ++ rest.map Prod.fst
            = Smap.keys m ++ k :: rest.map Prod.fst := by
          rw [Smap.keys_insert, List.append_assoc, List.singleton_append]
        have h2 : ¬ (Smap.keys (Smap.insert m k v) ++ rest.map Prod.fst).Nodup := by
          rw [hkeys]; exact h
        obtain ⟨n, herr, hmem, hcase⟩ := ih hm2 h2
        refine ⟨n, ?_, List.mem_cons_of_mem _ hmem, ?_⟩
        · simp only [insertAll, Bool.false_eq_true] at hc ⊢
          simp [hc, herr]
        · rcases hcase with hin | hcount
          · rw [Smap.keys_insert] at hin
            rcases List.mem_append.1 hin with hin | hin
            · exact Or.inl hin
            · have hnk : n = k := by simpa using hin
              refine Or.inr ?_
              subst hnk
              have h1 : 1 ≤ (rest.map Prod.fst).count n := List.one_le_count_iff.2 hmem
              rw [List.count_cons_self]
              omega
          · refine Or.inr ?_
            have hmono : (rest.map Prod.fst).count n ≤ (k :: rest.map Prod.fst).count n := by
              rw [List.count_cons]
              omega
            omega

/-! `find_blocks` is sequential registration of the block walk. -/

theorem find_blocks_eq (l : List Node) (m : Smap) :
    find_blocks l m = insertAll (blockWalk l) m := by
  induction l, m using find_blocks.induct with
  | case1 m => simp [find_blocks, blockWalk, insertAll]
  | case2 name body rest m hc =>
      simp [find_blocks, blockWalk, insertAll, hc]
  | case3 name body rest m hc blocks2 hok ih1 ih2 =>
      simp only [find_blocks, blockWalk, insertAll, hc, if_false, Bool.false_eq_true,
        insertAll_append, ← ih1, hok, ih2]
  | case4 name body rest m hc e herr ih1 =>
      simp only [find_blocks, blockWalk, insertAll, hc, if_false, Bool.false_eq_true,
        insertAll_append, ← ih1, herr]
  | case5 head rest m hnb ih =>
      cases head
      case Block name body => exact absurd rfl (hnb name body)
      all_goals simpa [find_blocks, blockWalk] using ih

/-- Every entry the block walk registers binds a name to a `Block` node
carrying that very name. -/
theorem blockWalk_shape (l : List Node) :
    ∀ p : String × Node, p ∈ blockWalk l → ∃ body, p = (p.1, Node.Block p.1 body) := by
  induction l using blockWalk.induct with
  | case1 => intro p hp; simp [blockWalk] at hp
  | case2 name body rest ih1 ih2 =>
      intro p hp
      simp only [blockWalk, List.mem_cons, List.mem_append] at hp
      rcases hp with rfl | hp | hp
      · exact ⟨body, rfl⟩
      · exact ih1 p hp
      · exact ih2 p hp
  | case3 head rest hnb ih =>
      intro p hp
      cases head
      case Block name body => exact absurd rfl (hnb name body)
      all_goals exact ih p (by simpa [blockWalk] using hp)

/-- Every top-level macro entry binds a name to a `Macro` node carrying
that very name. -/
theorem topMacros_shape {l : List Node} {p : String × Node} (hp : p ∈ topMacros l) :
    ∃ ps body, p = (p.1, Node.Macro p.1 ps body) := by
  simp only [topMacros, List.mem_filterMap] at hp
  obtain ⟨a, -, ha⟩ := hp
  cases a
  case Macro x y z =>
    obtain rfl : p = (x, Node.Macro x y z) := by
      simpa [macroEntry?] using ha.symm
    exact ⟨y, z, rfl⟩
  all_goals simp [macroEntry?] at ha

/-! Step lemmas for the specification-side views. -/

theorem lastExtendsFrom_nil (p : Option String) : lastExtendsFrom [] p = p := rfl

theorem lastExtendsFrom_cons_extends (s : String) (rest : List Node) (p : Option String) :
    lastExtendsFrom (.Extends s :: rest) p = lastExtendsFrom rest (some s) := by
  unfold lastExtendsFrom
  rw [List.filterMap_cons]
  simp only [parentName?]
  cases h : rest.filterMap parentName? with
  | nil => simp
  | cons y ys =>
      rw [List.getLast?_cons_cons]
      have hz := List.getLast?_eq_getLast_of_ne_nil (l := y :: ys) (by simp)
      simp [hz]

theorem lastExtendsFrom_cons_other (x : Node) (rest : List Node) (p : Option String)
    (hx : parentName? x = none) :
    lastExtendsFrom (x :: rest) p = lastExtendsFrom rest p := by
  unfold lastExtendsFrom
  rw [List.filterMap_cons, hx]

theorem lastExtendsFrom_none (l : List Node) : lastExtendsFrom l none = lastExtends l := by
  unfold lastExtendsFrom lastExtends
  cases (l.filterMap parentName?).getLast? <;> rfl

theorem topMacros_cons_hit (nm : String) (ps : List String) (b : List Node)
    (rest : List Node) :
    topMacros (.Macro nm ps b :: rest) = (nm, .Macro nm ps b) :: topMacros rest := by
  simp [topMacros, List.filterMap_cons, macroEntry?]

theorem topMacros_cons_other (x : Node) (rest : List Node) (hx : macroEntry? x = none) :
    topMacros (x :: rest) = topMacros rest := by
  simp [topMacros, List.filterMap_cons, hx]

theorem macroNames_cons_hit (nm : String) (ps : List String) (b : List Node)
    (rest : List Node) :
    macroNames (.Macro nm ps b :: rest) = nm :: macroNames rest := by
  simp [macroNames, topMacros_cons_hit]

theorem macroNames_cons_other (x : Node) (rest : List Node) (hx : macroEntry? x = none) :
    macroNames (x :: rest) = macroNames rest := by
  simp [macroNames, topMacros_cons_other x rest hx]

theorem topImports_cons_import (f ns : String) (rest : List Node) :
    topImports (.ImportMacro f ns :: rest) = (f, ns) :: topImports rest := by
  simp [topImports, List.filterMap_cons, importEntry?]

theorem topImports_cons_other (x : Node) (rest : List Node) (hx : importEntry? x = none) :
    topImports (x :: rest) = topImports rest := by
  simp [topImports, List.filterMap_cons, hx]

/-! Lemmas about the top-level scan. -/

/-- A successful scan returns exactly the last-wins parent, the macro
entries appended after the accumulator and the imports in order. -/
theorem scan_ok_inv (l : List Node) :
    ∀ (p : Option String) (m : Smap) (i : List (String × String)) r,
      scan_top_level l p m i = .ok r →
      r = (lastExtendsFrom l p, m ++ topMacros l, i ++ topImports l) := by
  induction l with
  | nil =>
      intro p m i r h
      simp only [scan_top_level, Except.ok.injEq] at h
      simp [← h, lastExtendsFrom_nil, topMacros, topImports]
  | cons x rest ih =>
      intro p m i r h
      cases x
      case Macro nm ps b =>
        by_cases hc : Smap.containsKey m nm = true
        · simp [scan_top_level, hc] at h
        · simp only [scan_top_level, hc, if_false, Bool.false_eq_true] at h
          rw [ih _ _ _ _ h]
          simp [lastExtendsFrom_cons_other, topMacros_cons_hit, topImports_cons_other,
            parentName?, importEntry?, Smap.insert, List.append_assoc]
      all_goals
        simp only [scan_top_level] at h
        rw [ih _ _ _ _ h]
        simp [lastExtendsFrom_cons_extends, lastExtendsFrom_cons_other, topMacros_cons_other,
          topImports_cons_other, topImports_cons_import, parentName?, macroEntry?,
          importEntry?, List.append_assoc]

/-- The scan succeeds whenever the accumulated keys plus the top-level
macro names are duplicate-free. -/
theorem scan_ok_of_nodup (l : List Node) :
    ∀ (p : Option String) (m : Smap) (i : List (String × String)),
      (Smap.keys m ++ macroNames l).Nodup →
      ∃ r, scan_top_level l p m i = .ok r := by
  induction l with
  | nil => intro p m i _; exact ⟨_, rfl⟩
  | cons x rest ih =>
      intro p m i h
      cases x
      case Macro nm ps b =>
        rw [macroNames_cons_hit] at h
        have hnotin : nm ∉ Smap.keys m := by
          rw [List.nodup_append] at h
          exact fun hk => h.2.2 hk (List.mem_cons_self _ _)
        have hc : Smap.containsKey m nm = false := by
          rw [← Bool.not_eq_true, Smap.containsKey_iff]
          exact hnotin
        have hkeys : Smap.keys (Smap.insert m nm (.Macro nm ps b)) ++ macroNames rest
            = Smap.keys m ++ nm :: macroNames rest := by
          rw [Smap.keys_insert, List.append_assoc, List.singleton_append]
        obtain ⟨r, hr⟩ := ih p (Smap.insert m nm (.Macro nm ps b)) i (by rw [hkeys]; exact h)
        exact ⟨r, by simp [scan_top_level, hc, hr]⟩
      all_goals
        simp only [macroNames_cons_other, macroEntry?] at h
        simpa [scan_top_level] using ih _ _ _ h

/-- When the accumulated keys plus the top-level macro names contain a
duplicate, the scan fails with `DuplicateMacro`, naming a macro that is
either already accumulated or occurs at least twice among the top-level
macro names. -/
theorem scan_err (l : List Node) :
    ∀ (p : Option String) (m : Smap) (i : List (String × String)),
      (Smap.keys m).Nodup →
      ¬ (Smap.keys m ++ macroNames l).Nodup →
      ∃ n, scan_top_level l p m i = .error (.DuplicateMacro n) ∧
        n ∈ macroNames l ∧
        (n ∈ Smap.keys m ∨ 2 ≤ (macroNames l).count n) := by
  induction l with
  | nil =>
      intro p m i hm h
      exact absurd (by simpa [macroNames, topMacros] using hm) h
  | cons x rest ih =>
      intro p m i hm h
      cases x
      case Macro nm ps b =>
        rw [macroNames_cons_hit] at h ⊢
        by_cases hc : Smap.containsKey m nm = true
        · refine ⟨nm, by simp [scan_top_level, hc], List.mem_cons_self _ _, Or.inl ?_⟩
          exact (Smap.containsKey_iff m nm).1 hc
        · have hnotin : nm ∉ Smap.keys m := by
            rw [← Smap.containsKey_iff]
            simp [hc]
          have hm2 : (Smap.keys (Smap.insert m nm (.Macro nm ps b))).Nodup := by
            rw [Smap.keys_insert, List.nodup_append]
            exact ⟨hm, List.nodup_singleton nm, by simpa using hnotin⟩
          have hkeys : Smap.keys (Smap.insert m nm (.Macro nm ps b)) ++ macroNames rest
              = Smap.keys m ++ nm :: macroNames rest := by
            rw [Smap.keys_insert, List.append_assoc, List.singleton_append]
          obtain ⟨n, herr, hmem, hcase⟩ := ih p (Smap.insert m nm (.Macro nm ps b)) i hm2
            (by rw [hkeys]; exact h)
          refine ⟨n, by simp [scan_top_level, hc, herr], List.mem_cons_of_mem _ hmem, ?_⟩
          rcases hcase with hin | hcount
          · rw [Smap.keys_insert] at hin
            rcases List.mem_append.1 hin with hin | hin
            · exact Or.inl hin
            · have hnk : n = nm := by simpa using hin
              refine Or.inr ?_
              subst hnk
              have h1 : 1 ≤ (macroNames rest).count n := List.one_le_count_iff.2 hmem
              rw [List.count_cons_self]
              omega
          · refine Or.inr ?_
            have hmono : (macroNames rest).count n ≤ (nm :: macroNames rest).count n := by
              rw [List.count_cons]
              omega
            omega
      all_goals
        simp only [macroNames_cons_other, macroEntry?] at h ⊢
        obtain ⟨n, herr, hmem, hcase⟩ := ih _ _ _ hm h
        exact ⟨n, by simpa [scan_top_level] using herr, hmem, hcase⟩

/-! Characterization of `Template.new`. -/

/-- Everything a successful analysis returns: the input name, path and
tree; the blocks of the block walk; the top-level macros, last-wins
parent and ordered imports; and the two registry fields left empty. -/
theorem new_ok_inv {nm : String} {pa : Option String} {ast : Node} {t : Template}
    (h : Template.new nm pa ast = .ok t) :
    t.name = nm ∧ t.path = pa ∧ t.ast = ast ∧
    t.blocks = blockWalk (get_children ast) ∧
    t.macros = topMacros (get_children ast) ∧
    t.parent = lastExtends (get_children ast) ∧
    t.imported_macro_files = topImports (get_children ast) ∧
    t.parents = [] ∧ t.blocks_definitions = [] := by
  unfold Template.new at h
  cases hfb : find_blocks (get_children ast) [] with
  | error e => simp [hfb] at h
  | ok blocks =>
      cases hsc : scan_top_level (get_children ast) none [] [] with
      | error e => simp [hfb, hsc] at h
      | ok r =>
          obtain ⟨p2, m2, i2⟩ := r
          simp only [hfb, hsc, Except.ok.injEq] at h
          subst h
          have hb : blocks = blockWalk (get_children ast) := by
            have h1 := find_blocks_eq (get_children ast) []
            rw [hfb] at h1
            simpa using insertAll_ok_inv h1.symm
          have hr := scan_ok_inv (get_children ast) none [] [] _ hsc
          simp only [Prod.mk.injEq, List.nil_append] at hr
          obtain ⟨hp2, hm2, hi2⟩ := hr
          exact ⟨rfl, rfl, rfl, hb, hm2, by rw [hp2, lastExtendsFrom_none], hi2, rfl, rfl⟩

/-- The analysis succeeds whenever the walked block names and the
top-level macro names are each duplicate-free. -/
theorem new_isOk_of_nodup {nm : String} {pa : Option String} {ast : Node}
    (h1 : (walkNames (get_children ast)).Nodup)
    (h2 : (macroNames (get_children ast)).Nodup) :
    (Template.new nm pa ast).isOk = true := by
  unfold Template.new
  have hfb : find_blocks (get_children ast) [] = .ok ([] ++ blockWalk (get_children ast)) := by
    rw [find_blocks_eq]
    exact insertAll_ok (by simpa [Smap.keys, walkNames] using h1)
  obtain ⟨r, hsc⟩ := scan_ok_of_nodup (get_children ast) none [] []
    (by simpa [Smap.keys, macroNames] using h2)
  obtain ⟨p2, m2, i2⟩ := r
  simp [hfb, hsc, Except.isOk, Except.toBool]

/-- A duplicated name among the walked blocks makes the analysis fail
with `DuplicateBlock`, naming a block that occurs at least twice. -/
theorem new_err_block {nm : String} {pa : Option String} {ast : Node} {bn : String}
    (h : 2 ≤ (walkNames (get_children ast)).count bn) :
    ∃ n, Template.new nm pa ast = .error (.DuplicateBlock n) ∧
      2 ≤ (walkNames (get_children ast)).count n := by
  have hnd : ¬ (Smap.keys ([] : Smap)
      ++ (blockWalk (get_children ast)).map Prod.fst).Nodup := by
    intro hnd
    simp only [Smap.keys, List.map_nil, List.nil_append] at hnd
    have hle := List.nodup_iff_count_le_one.1 hnd bn
    rw [walkNames] at h
    omega
  obtain ⟨n, herr, hmem, hcase⟩ := insertAll_err (by simp [Smap.keys]) hnd
  refine ⟨n, ?_, ?_⟩
  · unfold Template.new
    rw [find_blocks_eq, herr]
  · rcases hcase with hin | hc
    · simp [Smap.keys] at hin
    · rw [walkNames]
      exact hc

/-- With duplicate-free block names, a duplicated top-level macro name
makes the analysis fail with `DuplicateMacro`, naming a macro that occurs
at least twice. -/
theorem new_macro_err {nm : String} {pa : Option String} {ast : Node} {mn : String}
    (h1 : (walkNames (get_children ast)).Nodup)
    (h2 : 2 ≤ (macroNames (get_children ast)).count mn) :
    ∃ n, Template.new nm pa ast = .error (.DuplicateMacro n) ∧
      2 ≤ (macroNames (get_children ast)).count n := by
  have hfb : find_blocks (get_children ast) [] = .ok ([] ++ blockWalk (get_children ast)) := by
    rw [find_blocks_eq]
    exact insertAll_ok (by simpa [Smap.keys, walkNames] using h1)
  have hnd : ¬ (Smap.keys ([] : Smap) ++ macroNames (get_children ast)).Nodup := by
    intro hnd
    simp only [Smap.keys, List.map_nil, List.nil_append] at hnd
    have hle := List.nodup_iff_count_le_one.1 hnd mn
    omega
  obtain ⟨n, herr, hmem, hcase⟩ := scan_err (get_children ast) none [] []
    (by simp [Smap.keys]) hnd
  refine ⟨n, ?_, ?_⟩
  · unfold Template.new
    simp only [hfb, herr]
  · rcases hcase with hin | hc
    · simp [Smap.keys] at hin
    · exact hc

/-! Lemmas about `escape_html`. -/

/-- Every character escapes to at least one character. -/
theorem escapeChar_length_pos (c : Char) : 1 ≤ (escapeChar c).data.length := by
  unfold escapeChar
  split
  · decide
  · split
    · decide
    · split
      · decide
      · split
        · decide
        · split
          · decide
          · simp [String.singleton]

/-- Escaping never shortens a character list. -/
theorem escape_le (cs : List Char) :
    cs.length ≤ (cs.flatMap (fun c => (escapeChar c).data)).length := by
  induction cs with
  | nil => simp
  | cons c rest ih =>
      rw [List.flatMap_cons, List.length_append, List.length_cons]
      have h1 := escapeChar_length_pos c
      omega

/-- Escaping a list that contains an ampersand strictly lengthens it. -/
theorem escape_strict {cs : List Char} (h : '&' ∈ cs) :
    cs.length < (cs.flatMap (fun c => (escapeChar c).data)).length := by
  induction cs with
  | nil => simp at h
  | cons c rest ih =>
      rw [List.flatMap_cons, List.length_append, List.length_cons]
      rcases List.mem_cons.1 h with rfl | hr
      · have h5 : (escapeChar '&').data.length = 5 := by decide
        have hrest := escape_le rest
        omega
      · have h1 := escapeChar_length_pos c
        have h2 := ih hr
        omega

/-- The escaped form of a list containing an ampersand again contains an
ampersand (inside `&amp;`). -/
theorem amp_mem_escape {cs : List Char} (h : '&' ∈ cs) :
    '&' ∈ cs.flatMap (fun c => (escapeChar c).data) := by
  refine List.mem_flatMap.2 ⟨'&', h, ?_⟩
  decide

/-- Successful registration keeps the key list duplicate-free. -/
theorem insertAll_ok_keys_nodup {entries : List (String × Node)} {m m2 : Smap}
    (hm : (Smap.keys m).Nodup) (h : insertAll entries m = .ok m2) :
    (Smap.keys m2).Nodup := by
  induction entries generalizing m with
  | nil =>
      simp only [insertAll, Except.ok.injEq] at h
      rwa [← h]
  | cons p rest ih =>
      obtain ⟨k, v⟩ := p
      by_cases hc : Smap.containsKey m k = true
      · simp [insertAll, hc] at h
      · simp only [insertAll, hc, if_false, Bool.false_eq_true] at h
        refine ih ?_ h
        have hnotin : k ∉ Smap.keys m := by
          rw [← Smap.containsKey_iff]
          simp [hc]
        rw [Smap.keys_insert, List.nodup_append]
        exact ⟨hm, List.nodup_singleton k, by simpa using hnotin⟩

/-- The blocks map of a successful analysis has duplicate-free keys. -/
theorem new_ok_blocks_nodup {nm : String} {pa : Option String} {ast : Node} {t : Template}
    (h : Template.new nm pa ast = .ok t) : (Smap.keys t.blocks).Nodup := by
  unfold Template.new at h
  cases hfb : find_blocks (get_children ast) [] with
  | error e => simp [hfb] at h
  | ok blocks =>
      cases hsc : scan_top_level (get_children ast) none [] [] with
      | error e => simp [hfb, hsc] at h
      | ok r =>
          obtain ⟨p2, m2, i2⟩ := r
          simp only [hfb, hsc, Except.ok.injEq] at h
          subst h
          rw [find_blocks_eq] at hfb
          exact insertAll_ok_keys_nodup (by simp [Smap.keys]) hfb

/-! The claims. -/

/-- C1, counterexample: an AST whose two direct top-level children are
both `Extends` nodes is analyzed successfully — `Template::new` returns a
template instead of failing, so a second top-level `Extends` is not a
hard `DuplicateExtends` error (no such error exists in the analyzer). -/
theorem C1_counterexample :
    ((get_children astTwoExtends).filterMap parentName?).length = 2 ∧
    (Template.new "t" none astTwoExtends).isOk = true := by
  constructor
  · rfl
  · simp [Template.new, find_blocks, scan_top_level, get_children, astTwoExtends,
      Smap.containsKey, Smap.insert, Except.isOk, Except.toBool]

/-- C1, amended: a second top-level `Extends` is not an error.  Analysis
fails only over duplicate block or duplicate top-level macro names;
whenever those are duplicate-free, `Template::new` returns a template no
matter how many top-level `Extends` nodes the AST carries (the last one
wins, see C10). -/
theorem C1_multiple_extends_not_an_error (nm : String) (pa : Option String) (ast : Node)
    (h1 : (walkNames (get_children ast)).Nodup)
    (h2 : (macroNames (get_children ast)).Nodup) :
    (Template.new nm pa ast).isOk = true :=
  new_isOk_of_nodup h1 h2

/-- Witness for C1 at the two-`Extends` tree. -/
theorem C1_multiple_extends_not_an_error_witness :
    (Template.new "t" none astTwoExtends).isOk = true :=
  C1_multiple_extends_not_an_error "t" none astTwoExtends
    (by simp [walkNames, blockWalk, get_children, astTwoExtends])
    (by simp [macroNames, topMacros, get_children, astTwoExtends, macroEntry?])

/-- C2, counterexample: the block name `a` occurs on two `Block` nodes of
the tree (one top-level, one inside an `If` branch body), yet analysis
succeeds — `find_blocks` does not descend into non-`Block` bodies, so the
claim's "anywhere in the tree, at any nesting depth" fails. -/
theorem C2_counterexample :
    (allBlockNames astIfBlock).count "a" = 2 ∧
    (Template.new "t" none astIfBlock).isOk = true := by
  constructor
  · simp [astIfBlock, allBlockNames, allBlockNamesList, allBlockNamesBranches]
  · simp [Template.new, find_blocks, scan_top_level, get_children, astIfBlock,
      Smap.containsKey, Smap.insert, Except.isOk, Except.toBool]

/-- C2, amended: for every AST in which the same block name occurs on
more than one `Block` node reachable by descending only through `Block`
bodies (top-level blocks and blocks nested inside blocks — the walk of
`find_blocks`), `Template::new` fails with `DuplicateBlock`, naming a
block whose name occurs at least twice on that walk, and returns no
template. -/
theorem C2_duplicate_walked_block_fails (nm : String) (pa : Option String) (ast : Node)
    (bn : String) (h : 2 ≤ (walkNames (get_children ast)).count bn) :
    ∃ n, Template.new nm pa ast = .error (.DuplicateBlock n) ∧
      2 ≤ (walkNames (get_children ast)).count n :=
  new_err_block h

/-- Witness for C2 at the duplicated sibling blocks. -/
theorem C2_duplicate_walked_block_fails_witness :
    ∃ n, Template.new "t" none astDupBlocks = .error (.DuplicateBlock n) ∧
      2 ≤ (walkNames (get_children astDupBlocks)).count n :=
  C2_duplicate_walked_block_fails "t" none astDupBlocks "a"
    (by simp [walkNames, blockWalk, get_children, astDupBlocks])

/-- C3, counterexample: the tree contains exactly one `Block` node named
`b` (inside a `For` body), yet the blocks map of the successfully
returned template has no entry for `b` — the map does not cover blocks at
arbitrary nesting depth, only those reachable through `Block` bodies. -/
theorem C3_counterexample :
    (allBlockNames astForBlock).count "b" = 1 ∧
    (Template.new "t" none astForBlock).toOption.map
      (fun t => Smap.find? t.blocks "b") = some none := by
  constructor
  · simp [astForBlock, allBlockNames, allBlockNamesList, allBlockNamesBranches]
  · simp [Template.new, find_blocks, scan_top_level, get_children, astForBlock,
      Smap.containsKey, Smap.insert, Except.toOption, Smap.find?]

/-- C3, amended: on success the blocks map is exactly the sequence of
`(name, node)` entries of the pre-order walk that descends only through
`Block` bodies (all such blocks, one entry each — its keys are
duplicate-free — and nothing else). -/
theorem C3_blocks_are_walked_blocks (nm : String) (pa : Option String) (ast : Node)
    (t : Template) (h : Template.new nm pa ast = .ok t) :
    t.blocks = blockWalk (get_children ast) ∧ (Smap.keys t.blocks).Nodup :=
  ⟨(new_ok_inv h).2.2.2.1, new_ok_blocks_nodup h⟩

/-- Witness for C3 at a block nested inside a block. -/
theorem C3_blocks_are_walked_blocks_witness :
    ∃ t, Template.new "x" none astNestedBlocks = .ok t ∧
      t.blocks = blockWalk (get_children astNestedBlocks) ∧
      (Smap.keys t.blocks).Nodup := by
  obtain ⟨t, ht⟩ : ∃ t, Template.new "x" none astNestedBlocks = .ok t := by
    simp [Template.new, find_blocks, scan_top_level, get_children, astNestedBlocks,
      Smap.containsKey, Smap.insert]
  exact ⟨t, ht, C3_blocks_are_walked_blocks "x" none astNestedBlocks t ht⟩

/-- C4: the scan for `Extends`, `Macro` and `ImportMacro` examines only
the AST's direct top-level children: on success, `parent`, `macros` and
`imported_macro_files` equal the views computed from each direct child's
own head constructor alone (`lastExtends`, `topMacros`, `topImports`
never look inside a child's body), so a node of one of these kinds nested
inside a block/if/for body contributes nothing. -/
theorem C4_scan_is_top_level_only (nm : String) (pa : Option String) (ast : Node)
    (t : Template) (h : Template.new nm pa ast = .ok t) :
    t.parent = lastExtends (get_children ast) ∧
    t.macros = topMacros (get_children ast) ∧
    t.imported_macro_files = topImports (get_children ast) := by
  obtain ⟨-, -, -, -, hm, hp, hi, -, -⟩ := new_ok_inv h
  exact ⟨hp, hm, hi⟩

/-- Witness for C4: `Extends`, `Macro` and `ImportMacro` nested inside a
block body set nothing. -/
theorem C4_scan_is_top_level_only_witness :
    ∃ t, Template.new "x" none astNestedScan = .ok t ∧
      t.parent = none ∧ t.macros = [] ∧ t.imported_macro_files = [] := by
  obtain ⟨t, ht⟩ : ∃ t, Template.new "x" none astNestedScan = .ok t := by
    simp [Template.new, find_blocks, scan_top_level, get_children, astNestedScan,
      Smap.containsKey, Smap.insert]
  obtain ⟨hp, hm, hi⟩ := C4_scan_is_top_level_only "x" none astNestedScan t ht
  refine ⟨t, ht, ?_, ?_, ?_⟩
  · rw [hp]; rfl
  · rw [hm]; rfl
  · rw [hi]; rfl

/-- C6: on success, `imported_macro_files` is exactly the ordered
sequence of `(file, namespace)` pairs of the top-level `ImportMacro`
nodes; a namespace imported twice stays as two entries in declaration
order (no deduplication at analysis time). -/
theorem C6_imports_in_declaration_order (nm : String) (pa : Option String) (ast : Node)
    (t : Template) (h : Template.new nm pa ast = .ok t) :
    t.imported_macro_files = topImports (get_children ast) :=
  (new_ok_inv h).2.2.2.2.2.2.1

/-- Witness for C6: the namespace `m` imported from two files is kept as
two ordered entries. -/
theorem C6_imports_in_declaration_order_witness :
    ∃ t, Template.new "x" none astImports = .ok t ∧
      t.imported_macro_files = [("f1", "m"), ("f2", "m")] := by
  obtain ⟨t, ht⟩ : ∃ t, Template.new "x" none astImports = .ok t := by
    simp [Template.new, find_blocks, scan_top_level, get_children, astImports,
      Smap.containsKey, Smap.insert]
  refine ⟨t, ht, ?_⟩
  rw [C6_imports_in_declaration_order "x" none astImports t ht]
  rfl

/-- C7: every successful analysis returns `parents` as the empty
sequence and `blocks_definitions` as the empty map; only the later
registry resolution pass fills them. -/
theorem C7_registry_fields_left_empty (nm : String) (pa : Option String) (ast : Node)
    (t : Template) (h : Template.new nm pa ast = .ok t) :
    t.parents = [] ∧ t.blocks_definitions = [] :=
  ⟨(new_ok_inv h).2.2.2.2.2.2.2.1, (new_ok_inv h).2.2.2.2.2.2.2.2⟩

/-- Witness for C7 at an empty tree. -/
theorem C7_registry_fields_left_empty_witness :
    ∃ t, Template.new "x" none (.List []) = .ok t ∧
      t.parents = [] ∧ t.blocks_definitions = [] := by
  obtain ⟨t, ht⟩ : ∃ t, Template.new "x" none (.List []) = .ok t := by
    simp [Template.new, find_blocks, scan_top_level, get_children]
  exact ⟨t, ht, C7_registry_fields_left_empty "x" none (.List []) t ht⟩

/-- C9: in a returned template, every blocks-map entry binds a key `k` to
a `Node::Block` whose name is `k`, and every macros-map entry binds a key
`k` to a `Node::Macro` whose name is `k`. -/
theorem C9_map_entries_well_formed (nm : String) (pa : Option String) (ast : Node)
    (t : Template) (h : Template.new nm pa ast = .ok t) :
    (∀ k v, Smap.find? t.blocks k = some v → ∃ body, v = Node.Block k body) ∧
    (∀ k v, Smap.find? t.macros k = some v → ∃ ps body, v = Node.Macro k ps body) := by
  obtain ⟨-, -, -, hb, hm, -, -, -, -⟩ := new_ok_inv h
  constructor
  · intro k v hf
    rw [hb] at hf
    obtain ⟨body, hp⟩ := blockWalk_shape (get_children ast) (k, v) (Smap.find?_mem hf)
    exact ⟨body, congrArg Prod.snd hp⟩
  · intro k v hf
    rw [hm] at hf
    obtain ⟨ps, body, hp⟩ := topMacros_shape (Smap.find?_mem hf)
    exact ⟨ps, body, congrArg Prod.snd hp⟩

/-- Witness for C9 at a tree with one block and one macro. -/
theorem C9_map_entries_well_formed_witness :
    (∃ body, Node.Block "a" [] = Node.Block "a" body) ∧
    (∃ ps body, Node.Macro "m" [] [] = Node.Macro "m" ps body) := by
  obtain ⟨t, ht⟩ : ∃ t, Template.new "x" none astBlockMacro = .ok t := by
    simp [Template.new, find_blocks, scan_top_level, get_children, astBlockMacro,
      Smap.containsKey, Smap.insert]
  have h := C9_map_entries_well_formed "x" none astBlockMacro t ht
  obtain ⟨-, -, -, hb, hm, -, -, -, -⟩ := new_ok_inv ht
  refine ⟨h.1 "a" (Node.Block "a" []) ?_, h.2 "m" (Node.Macro "m" [] []) ?_⟩
  · rw [hb]
    simp [blockWalk, get_children, astBlockMacro, Smap.find?]
  · rw [hm]
    simp [topMacros, get_children, astBlockMacro, macroEntry?, Smap.find?]

/-- C10: on success the `parent` field is the parent name of the last
top-level `Extends` node in document order, and `none` when the direct
top-level children contain no `Extends` node. -/
theorem C10_parent_is_last_extends (nm : String) (pa : Option String) (ast : Node)
    (t : Template) (h : Template.new nm pa ast = .ok t) :
    t.parent = lastExtends (get_children ast) :=
  (new_ok_inv h).2.2.2.2.2.1

/-- Witness for C10: with two top-level `Extends`, the later one wins;
with none, the parent is `none`. -/
theorem C10_parent_is_last_extends_witness :
    (∃ t, Template.new "y" none astTwoExtends = .ok t ∧ t.parent = some "b") ∧
    (∃ t, Template.new "z" none (.List [.Text "hi"]) = .ok t ∧ t.parent = none) := by
  constructor
  · obtain ⟨t, ht⟩ : ∃ t, Template.new "y" none astTwoExtends = .ok t := by
      simp [Template.new, find_blocks, scan_top_level, get_children, astTwoExtends,
        Smap.containsKey, Smap.insert]
    refine ⟨t, ht, ?_⟩
    rw [C10_parent_is_last_extends "y" none astTwoExtends t ht]
    rfl
  · obtain ⟨t, ht⟩ : ∃ t, Template.new "z" none (.List [.Text "hi"]) = .ok t := by
      simp [Template.new, find_blocks, scan_top_level, get_children,
        Smap.containsKey, Smap.insert]
    refine ⟨t, ht, ?_⟩
    rw [C10_parent_is_last_extends "z" none (.List [.Text "hi"]) t ht]
    rfl

/-- C5, counterexample: the direct top-level children contain two
`Macro` nodes named `m`, yet the analysis fails with `DuplicateBlock`
(block collection runs first) rather than with a `DuplicateMacro` error
naming the duplicated macro — the claim as universally stated fails. -/
theorem C5_counterexample :
    Template.new "t" none astDupBoth = .error (.DuplicateBlock "a") := by
  simp [Template.new, find_blocks, scan_top_level, get_children, astDupBoth,
    Smap.containsKey, Smap.insert]

/-- C5, amended: on success, every top-level `Macro` node is in the
macros map keyed by its name; and provided block collection succeeds
(walked block names duplicate-free — duplicate blocks are reported
first), an AST whose top-level children carry two `Macro` nodes with the
same name fails with `DuplicateMacro`, naming a macro whose name occurs
at least twice. -/
theorem C5_macros_registered_and_duplicates_fail (nm : String) (pa : Option String)
    (ast : Node) :
    (∀ t, Template.new nm pa ast = .ok t → t.macros = topMacros (get_children ast)) ∧
    ((walkNames (get_children ast)).Nodup →
      ∀ mn, 2 ≤ (macroNames (get_children ast)).count mn →
        ∃ n, Template.new nm pa ast = .error (.DuplicateMacro n) ∧
          2 ≤ (macroNames (get_children ast)).count n) := by
  constructor
  · intro t ht
    exact (new_ok_inv ht).2.2.2.2.1
  · intro h1 mn h2
    exact new_macro_err h1 h2

/-- Witness for C5 at the duplicated top-level macros. -/
theorem C5_macros_registered_and_duplicates_fail_witness :
    ∃ n, Template.new "t" none astDupMacros = .error (.DuplicateMacro n) ∧
      2 ≤ (macroNames (get_children astDupMacros)).count n :=
  (C5_macros_registered_and_duplicates_fail "t" none astDupMacros).2
    (by simp [walkNames, blockWalk, get_children, astDupMacros])
    "m"
    (by simp [macroNames, topMacros, get_children, astDupMacros, macroEntry?,
      List.count_cons])

/-- C8: `escape_html` replaces each of `&`, `<`, `>`, `"`, `'` by its
entity, passes every other character through unchanged, distributes over
concatenation (it is a pure character-wise map of its text argument),
sends `"<script></script>"` to `"&lt;script&gt;&lt;/script&gt;"`, and is
not idempotent on inputs containing `&` (re-application double-escapes). -/
theorem C8_escape_html_contract :
    (escape_html "&" = "&amp;" ∧ escape_html "<" = "&lt;" ∧ escape_html ">" = "&gt;" ∧
      escape_html "\"" = "&quot;" ∧ escape_html "\'" = "&apos;") ∧
    (∀ c : Char, c ∉ (['&', '<', '>', '\"', '\''] : List Char) →
      escape_html (String.singleton c) = String.singleton c) ∧
    (∀ s1 s2 : String, escape_html (s1 ++ s2) = escape_html s1 ++ escape_html s2) ∧
    escape_html "<script></script>" = "&lt;script&gt;&lt;/script&gt;" ∧
    (∀ s : String, '&' ∈ s.data → escape_html (escape_html s) ≠ escape_html s) := by
  refine ⟨⟨rfl, rfl, rfl, rfl, rfl⟩, ?_, ?_, rfl, ?_⟩
  · intro c hc
    simp only [List.mem_cons, List.not_mem_nil, or_false, not_or] at hc
    obtain ⟨h1, h2, h3, h4, h5⟩ := hc
    show String.mk ((String.singleton c).data.flatMap fun c => (escapeChar c).data)
      = String.singleton c
    simp [String.singleton, escapeChar, h1, h2, h3, h4, h5]
    rfl
  · intro s1 s2
    apply String.ext
    show ((s1 ++ s2).data.flatMap fun c => (escapeChar c).data)
      = (escape_html s1 ++ escape_html s2).data
    rw [String.data_append, List.flatMap_append, String.data_append]
    rfl
  · intro s hmem heq
    have h2 : '&' ∈ (escape_html s).data := amp_mem_escape hmem
    have h3 := escape_strict h2
    have h4 : (escape_html (escape_html s)).data.length = (escape_html s).data.length := by
      rw [heq]
    have h5 : (escape_html (escape_html s)).data
        = (escape_html s).data.flatMap (fun c => (escapeChar c).data) := rfl
    rw [h5] at h4
    omega

/-- Witness for C8: a plain character passes through unchanged, and
escaping twice differs from escaping once on an input containing `&`. -/
theorem C8_escape_html_contract_witness :
    escape_html (String.singleton 'x') = String.singleton 'x' ∧
    escape_html (escape_html "&") ≠ escape_html "&" :=
  ⟨C8_escape_html_contract.2.1 'x' (by decide),
   C8_escape_html_contract.2.2.2.2 "&" (by decide)⟩

end Tera
